import Mathlib

/-!
Verification of the Delaunay triangulation core (PointSet / Triangles /
Triangulator) against its specification.

The geometric layer (`Triangulator.py`) is embedded over `ℚ`: the source
performs its arithmetic on Python floats, and every comparison against the
`1e-9` epsilons that we evaluate concretely holds with margins many orders of
magnitude wider than double rounding error, so exact rational arithmetic is a
faithful model of the decisions the code makes on those inputs.

The codec layer (`PointSet.py`, `Triangles.to_bytes`) is embedded at the level
of 32-bit little-endian words: a coordinate is carried as its raw 32-bit
pattern (a `ℕ`), which is exactly what the codec moves around — it never
inspects coordinate values.
-/

namespace TriCore

/-- A 2-D point with exact rational coordinates. -/
abbrev Pt := ℚ × ℚ

/-- A triangle as an ordered triple of vertex indices
(`TriangleIndices` in `Triangulator.py`). -/
abbrev Tri := ℕ × ℕ × ℕ

/-- The vertex indices of a triangle, as the list Python iterates over. -/
def vertsT (t : Tri) : List ℕ := [t.1, t.2.1, t.2.2]

/-- The `1e-9` epsilon used by `_is_point_in_circumcircle`. -/
def eps : ℚ := 1 / 1000000000

/-- Circumcircle containment on explicit vertices: the body of
`Triangulator._is_point_in_circumcircle` after the three vertex lookups. -/
def circum (p1 p2 p3 p : Pt) : Bool :=
  let ax := p1.1; let ay := p1.2
  let bx := p2.1; let by' := p2.2
  let cx := p3.1; let cy := p3.2
  let d := 2 * (ax * (by' - cy) + bx * (cy - ay) + cx * (ay - by'))
  if |d| < eps then
    false
  else
    let ux := ((ax * ax + ay * ay) * (by' - cy) + (bx * bx + by' * by') *
      (cy - ay) + (cx * cx + cy * cy) * (ay - by')) / d
    let uy := ((ax * ax + ay * ay) * (cx - bx) + (bx * bx + by' * by') *
      (ax - cx) + (cx * cx + cy * cy) * (bx - ax)) / d
    let rSq := (ux - ax) ^ 2 + (uy - ay) ^ 2
    let dSq := (ux - p.1) ^ 2 + (uy - p.2) ^ 2
    decide (dSq < rSq - eps)

/-- Embeds `Triangulator._is_point_in_circumcircle`: look the triangle's
vertices up in `allPts` and test `p` against their circumcircle.  (The
algorithm only calls this with indices that are in range; `getD` supplies a
default that is never used, in place of Python's `IndexError`.) -/
def isPointInCircumcircle (p : Pt) (t : Tri) (allPts : List Pt) : Bool :=
  circum (allPts.getD t.1 (0, 0)) (allPts.getD t.2.1 (0, 0))
    (allPts.getD t.2.2 (0, 0)) p

/-- The three directed edges of a triangle, in the order the source lists
them. -/
def edgesOf (t : Tri) : List (ℕ × ℕ) :=
  [(t.1, t.2.1), (t.2.1, t.2.2), (t.2.2, t.1)]

/-- Embeds `tuple(sorted(edge))`: an edge normalised as an unordered vertex
pair. -/
def sortEdge (e : ℕ × ℕ) : ℕ × ℕ :=
  if e.1 ≤ e.2 then e else (e.2, e.1)

/-- Whether some *other* bad triangle shares the edge `e` of `tri`
(the inner `shared` scan of the cavity-boundary step). -/
def sharedEdge (bad : List Tri) (tri : Tri) (e : ℕ × ℕ) : Bool :=
  bad.any fun other =>
    decide (other ≠ tri) && ((edgesOf other).map sortEdge).contains (sortEdge e)

/-- The cavity boundary polygon: every edge of every bad triangle that no
other bad triangle shares. -/
def cavityBoundary (bad : List Tri) : List (ℕ × ℕ) :=
  bad.flatMap fun tri => (edgesOf tri).filter fun e => !(sharedEdge bad tri e)

/-- One insertion step of Bowyer-Watson (the body of the `for i, point`
loop in `Triangulator.triangulate`): collect bad triangles, extract the
cavity boundary, remove the bad triangles, re-triangulate the cavity. -/
def insertPoint (allPts : List Pt) (tr : List Tri) (i : ℕ) (p : Pt) : List Tri :=
  let bad := tr.filter fun t => isPointInCircumcircle p t allPts
  let poly := cavityBoundary bad
  let removed := bad.foldl List.erase tr
  removed ++ poly.map fun e => (e.1, e.2, i)

/-- Minimum of the x coordinates (`min(p[0] for p in points)`); total with
value `0` on the empty list, which the triangulator never passes. -/
def minX : List Pt → ℚ
  | [] => 0
  | p :: rest => rest.foldl (fun m q => min m q.1) p.1

/-- Maximum of the x coordinates. -/
def maxX : List Pt → ℚ
  | [] => 0
  | p :: rest => rest.foldl (fun m q => max m q.1) p.1

/-- Minimum of the y coordinates. -/
def minY : List Pt → ℚ
  | [] => 0
  | p :: rest => rest.foldl (fun m q => min m q.2) p.2

/-- Maximum of the y coordinates. -/
def maxY : List Pt → ℚ
  | [] => 0
  | p :: rest => rest.foldl (fun m q => max m q.2) p.2

/-- The three synthetic super-triangle vertices of step 1 of
`Triangulator.triangulate`. -/
def superNodes (pts : List Pt) : List Pt :=
  let dx := maxX pts - minX pts
  let dy := maxY pts - minY pts
  let deltaMax := max dx dy
  let midX := (minX pts + maxX pts) / 2
  let midY := (minY pts + maxY pts) / 2
  [(midX - 20 * deltaMax, midY - deltaMax),
   (midX, midY + 20 * deltaMax),
   (midX + 20 * deltaMax, midY - deltaMax)]

/-- The run-local extended point list
(`all_points = points + super_triangle_nodes`). -/
def allPoints (pts : List Pt) : List Pt :=
  pts ++ superNodes pts

/-- Embeds the `for i, point in enumerate(points)` loop of `triangulate`:
insert each remaining point in input order, `i` being the index of the next
one. -/
def insertLoop (ap : List Pt) (tr : List Tri) (i : ℕ) : List Pt → List Tri
  | [] => tr
  | p :: rest => insertLoop ap (insertPoint ap tr i p) (i + 1) rest

/-- Embeds `Triangulator.triangulate` up to the final validating construction:
super-triangle seeding, incremental insertion of every input point in input
order, and the cleanup discarding triangles touching synthetic vertices. -/
def bowyerWatson (pts : List Pt) : List Tri :=
  let n := pts.length
  let tr := insertLoop (allPoints pts) [(n, n + 1, n + 2)] 0 pts
  tr.filter fun t => !((vertsT t).any fun idx => n ≤ idx)

/-! ### Triangulator construction-time validation (`Triangulator.__init__`) -/

/-- The two `ValueError`s `Triangulator.__init__` can raise, named as in the
spec's error taxonomy: `insufficientPoints` is the message
"need at least three points for triangulation", `duplicatePoints` the message
"duplicate points in point set". -/
inductive TriError where
  | insufficientPoints
  | duplicatePoints
deriving DecidableEq

/-- Embeds the `seen`-set loop of `Triangulator._validate_no_duplicates`
(over `ℚ` the `float(x), float(y)` key is the point itself). -/
def hasDuplicate (seen : List Pt) : List Pt → Bool
  | [] => false
  | p :: rest => p ∈ seen || hasDuplicate (p :: seen) rest

/-- Embeds `Triangulator.__init__`: `_validate_min_points` first, then
`_validate_no_duplicates`; the first failing check raises. -/
def triInit (pts : List Pt) : Except TriError Unit :=
  if pts.length < 3 then .error .insufficientPoints
  else if hasDuplicate [] pts then .error .duplicatePoints
  else .ok ()

/-! ### Mesh validation (`Triangles._validate_triangles`)

A candidate triangle is an arbitrary integer tuple, embedded as `List ℤ`
(the count check guards the later destructuring `i, j, k = triangle`). -/

/-- A candidate triangle handed to the `Triangles` constructor. -/
abbrev TriZ := List ℤ

/-- The four `ValueError`s of `Triangles._validate_triangles`, named as in
the spec's taxonomy.  Each constructor corresponds to one exact message
string in the source — "a triangle don t have exactly 3 indices",
"triangle indices out of range",
"a triangle must reference three distinct points", "duplicate triangles" —
none of which carries the offending triangle. -/
inductive MeshErr where
  | invalidTriangleIndexCount
  | triangleIndexOutOfRange
  | triangleNonDistinctVertices
  | duplicateTriangle
deriving DecidableEq

/-- Embeds `tuple(sorted((i, j, k)))`, the normalised duplicate-detection
key of `_validate_not_duplicate`. -/
def sortKey (t : TriZ) : TriZ := List.insertionSort (· ≤ ·) t

/-- Embeds `_validate_indices_number`: the triangle has exactly 3 indices. -/
def checkCount (t : TriZ) : Bool := t.length == 3

/-- Embeds `_validate_indices_in_range` (the destructuring `i, j, k` is only
reached after the count check, so the non-3 shapes are unreachable). -/
def checkRange (t : TriZ) (nbPoints : ℕ) : Bool :=
  match t with
  | [i, j, k] =>
    !((i < 0 || (nbPoints : ℤ) ≤ i) || (j < 0 || (nbPoints : ℤ) ≤ j) ||
      (k < 0 || (nbPoints : ℤ) ≤ k))
  | _ => false

/-- Embeds `_validate_distinct_vertices`: `len(set(triangle)) == 3`. -/
def checkDistinct (t : TriZ) : Bool := t.dedup.length == 3

/-- One iteration of the `_validate_triangles` loop: the four checks in
source order, failing fast, threading the `seen` key set. -/
def validateStep (nbPoints : ℕ) (seen : List TriZ) (t : TriZ) :
    Except MeshErr (List TriZ) :=
  if !checkCount t then .error .invalidTriangleIndexCount
  else if !checkRange t nbPoints then .error .triangleIndexOutOfRange
  else if !checkDistinct t then .error .triangleNonDistinctVertices
  else if sortKey t ∈ seen then .error .duplicateTriangle
  else .ok (sortKey t :: seen)

/-- The `for triangle in self.triangles` loop of `_validate_triangles`. -/
def validateGo (nbPoints : ℕ) (seen : List TriZ) : List TriZ → Except MeshErr Unit
  | [] => .ok ()
  | t :: rest =>
    match validateStep nbPoints seen t with
    | .error e => .error e
    | .ok seen' => validateGo nbPoints seen' rest

/-- Embeds `Triangles._validate_triangles`: validate every candidate
triangle against a point collection of `nbPoints` points, starting from an
empty `seen` set. -/
def validateTriangles (nbPoints : ℕ) (ts : List TriZ) : Except MeshErr Unit :=
  validateGo nbPoints [] ts

/-- The `Triangles` object: a point collection plus its validated triangle
list (the triangulator's output side, where every triangle is a `ℕ` triple). -/
structure Triangles where
  pointset : List Pt
  triangles : List Tri
deriving DecidableEq

/-- A triangulator triangle as the integer tuple the validator sees. -/
def toZ (t : Tri) : TriZ := [(t.1 : ℤ), (t.2.1 : ℤ), (t.2.2 : ℤ)]

/-- Embeds the validating `Triangles.__init__` as called from `triangulate`:
store the point set and triangle list after `_validate_triangles` passes. -/
def mkTriangles (pts : List Pt) (ts : List Tri) : Except MeshErr Triangles :=
  match validateTriangles pts.length (ts.map toZ) with
  | .error e => .error e
  | .ok _ => .ok ⟨pts, ts⟩

/-- Embeds the full `Triangulator.triangulate`: run Bowyer-Watson, then the
validating `Triangles` construction on the original point set. -/
def triangulate (pts : List Pt) : Except MeshErr Triangles :=
  mkTriangles pts (bowyerWatson pts)

/-! ### Binary codec (`PointSet.py`, `Triangles.to_bytes`)

A buffer is a `List ℕ` of bytes; a coordinate is carried as its raw
little-endian 32-bit pattern (a `ℕ` below `2^32`), which is exactly what the
codec reads and writes — it never inspects coordinate values, so NaN or
Infinity bit patterns travel like any other word. -/

/-- The little-endian 32-bit word at the head of a byte list
(`struct.unpack_from` of an `I` or `f` field; absent bytes default to 0,
a case the length guards make unreachable). -/
def rd32 (l : List ℕ) : ℕ :=
  l.getD 0 0 + 256 * l.getD 1 0 + 65536 * l.getD 2 0 + 16777216 * l.getD 3 0

/-- The little-endian 32-bit word at offset `off` of a buffer. -/
def read32 (data : List ℕ) (off : ℕ) : ℕ := rd32 (data.drop off)

/-- The four little-endian bytes of a 32-bit word (`struct.pack` of an `I`
or `f` field). -/
def le32 (n : ℕ) : List ℕ :=
  [n % 256, n / 256 % 256, n / 65536 % 256, n / 16777216 % 256]

/-- The decoding failure of `PointSet._build_from_bytes`: both of its
`ValueError`s ("buffer too short to contain point count", "buffer too
short") are the spec's `MalformedBuffer`. -/
inductive CodecErr where
  | malformedBuffer
deriving DecidableEq

/-- The point-reading loop of `_build_from_bytes`: `count` pairs of 32-bit
words, consumed 8 bytes at a time. -/
def readPoints : ℕ → List ℕ → List (ℕ × ℕ)
  | 0, _ => []
  | count + 1, l => (rd32 l, rd32 (l.drop 4)) :: readPoints count (l.drop 8)

/-- Embeds `PointSet._build_from_bytes`: length guard for the count, read
the count, length guard for the payload, then read the points. -/
def decodePointSet (data : List ℕ) : Except CodecErr (List (ℕ × ℕ)) :=
  if data.length < 4 then .error .malformedBuffer
  else
    let count := read32 data 0
    if data.length < 4 + count * 8 then .error .malformedBuffer
    else .ok (readPoints count (data.drop 4))

/-- The payload of `PointSet.to_bytes`: each point's two 32-bit words in
sequence. -/
def ptsBody (ps : List (ℕ × ℕ)) : List ℕ :=
  ps.flatMap fun p => le32 p.1 ++ le32 p.2

/-- Embeds `PointSet.to_bytes`: the point count, then each point's two
32-bit words. -/
def encodePointSet (ps : List (ℕ × ℕ)) : List ℕ :=
  le32 ps.length ++ ptsBody ps

/-- A mesh at codec level: the decoded point patterns plus the triangle
tuples (the spec's Mesh, as moved by `Triangles.to_bytes`). -/
structure MeshB where
  points : List (ℕ × ℕ)
  tris : List TriZ
deriving DecidableEq

/-- One triangle of `Triangles.to_bytes`: `struct.pack("<III", i, j, k)`
(validated triangles always destructure as three indices in `[0, 2^32)`). -/
def encodeTriZ (t : TriZ) : List ℕ :=
  match t with
  | [i, j, k] => le32 i.toNat ++ le32 j.toNat ++ le32 k.toNat
  | _ => []

/-- Embeds `Triangles.to_bytes`: the full point-set encoding, then the
triangle count, then each triangle's three indices. -/
def encodeMesh (m : MeshB) : List ℕ :=
  encodePointSet m.points ++ le32 m.tris.length ++ m.tris.flatMap encodeTriZ

/-- The triangle-reading loop of the mesh decoder: `count` index triples,
consumed 12 bytes at a time. -/
def readTris : ℕ → List ℕ → List TriZ
  | 0, _ => []
  | count + 1, l =>
    [(rd32 l : ℤ), (rd32 (l.drop 4) : ℤ), (rd32 (l.drop 8) : ℤ)] ::
      readTris count (l.drop 12)

/-- Modelled from the spec: the repository has no mesh decoder under `src/`
(`Triangles` only encodes), and §4.2 specifies `decode(buffer) -> Mesh` as
"decode points via PointCodec, then the triangle count and index triples,
constructing (and thereby validating) a Mesh from them".  Truncation fails
like `MalformedBuffer`; a mesh-invariant violation propagates the validation
failure; both are collapsed into `Except Unit` as the round-trip claim only
concerns successful decodes. -/
def decodeMesh (data : List ℕ) : Except Unit MeshB :=
  match decodePointSet data with
  | .error _ => .error ()
  | .ok ps =>
    let rest := data.drop (4 + ps.length * 8)
    if rest.length < 4 then .error ()
    else
      let tcount := rd32 rest
      if rest.length < 4 + tcount * 12 then .error ()
      else
        let tris := readTris tcount (rest.drop 4)
        match validateTriangles ps.length tris with
        | .error _ => .error ()
        | .ok _ => .ok ⟨ps, tris⟩

/-! ## Theorems -/

/-- Squared distance between two points, as the spec's `distance²`. -/
def distSq (a b : Pt) : ℚ := (a.1 - b.1) ^ 2 + (a.2 - b.2) ^ 2

/-- C4: the circumcircle-containment predicate computes
`d = 2·(ax·(by−cy) + bx·(cy−ay) + cx·(ay−by))`, reports "not inside"
whenever `|d| < 1e-9`, and otherwise reports "inside" exactly when the
squared distance from the circumcenter to `p` is strictly below the squared
distance from the circumcenter to vertex `a` minus `1e-9`. -/
theorem circum_matches_spec_formula (p1 p2 p3 p : Pt) :
    circum p1 p2 p3 p =
      (let ax := p1.1; let ay := p1.2
       let bx := p2.1; let by' := p2.2
       let cx := p3.1; let cy := p3.2
       let d := 2 * (ax * (by' - cy) + bx * (cy - ay) + cx * (ay - by'))
       if |d| < 1 / 1000000000 then false
       else
         let ux := ((ax * ax + ay * ay) * (by' - cy) + (bx * bx + by' * by') *
           (cy - ay) + (cx * cx + cy * cy) * (ay - by')) / d
         let uy := ((ax * ax + ay * ay) * (cx - bx) + (bx * bx + by' * by') *
           (ax - cx) + (cx * cx + cy * cy) * (bx - ax)) / d
         decide (distSq (ux, uy) p < distSq (ux, uy) p1 - 1 / 1000000000)) :=
  rfl

/-- The `seen`-set duplicate scan finds a duplicate exactly when the list
(together with the already-seen keys) is not duplicate-free. -/
theorem hasDuplicate_eq_false (seen l : List Pt) :
    hasDuplicate seen l = false ↔ l.Nodup ∧ ∀ p ∈ l, p ∉ seen := by
  induction l generalizing seen with
  | nil => simp [hasDuplicate]
  | cons p rest ih =>
    simp only [hasDuplicate, Bool.or_eq_false_iff, ih, List.nodup_cons,
      List.mem_cons, decide_eq_false_iff_not]
    constructor
    · rintro ⟨hp, hnodup, hrest⟩
      refine ⟨⟨fun hm => hrest p hm (Or.inl rfl), hnodup⟩, ?_⟩
      rintro q (rfl | hq)
      · exact hp
      · exact fun hqs => hrest q hq (Or.inr hqs)
    · rintro ⟨⟨hpm, hnodup⟩, hseen⟩
      refine ⟨hseen p (Or.inl rfl), hnodup, ?_⟩
      rintro q hq (rfl | hqs)
      · exact hpm hq
      · exact hseen q (Or.inr hq) hqs

/-- C3 (counterexample): a collection of exactly two identical points fails
at construction with `InsufficientPoints`, not with `DuplicatePoints` — the
minimum-count check runs before the duplicate check. -/
theorem init_short_duplicate_counterexample :
    triInit [((0 : ℚ), (0 : ℚ)), (0, 0)] = .error .insufficientPoints ∧
    triInit [((0 : ℚ), (0 : ℚ)), (0, 0)] ≠ .error .duplicatePoints := by
  refine ⟨rfl, fun h => ?_⟩
  rw [triInit] at h
  simp at h

/-- C3 (amended): construction on fewer than 3 points fails with
`InsufficientPoints` (even in the presence of duplicates); construction on
at least 3 points fails with `DuplicatePoints` exactly when two points have
equal coordinate pairs; otherwise it succeeds. -/
theorem init_validation_order (pts : List Pt) :
    (pts.length < 3 → triInit pts = .error .insufficientPoints) ∧
    (3 ≤ pts.length →
      (triInit pts = .error .duplicatePoints ↔ ¬ pts.Nodup)) ∧
    (3 ≤ pts.length → pts.Nodup → triInit pts = .ok ()) := by
  have hdup : hasDuplicate [] pts = true ↔ ¬ pts.Nodup := by
    rw [← Bool.not_eq_false, not_iff_not, hasDuplicate_eq_false]
    simp
  refine ⟨fun h => by simp [triInit, h], fun h => ?_, fun h hn => ?_⟩
  · rw [triInit, if_neg (by omega)]
    constructor
    · intro he
      by_cases hd : hasDuplicate [] pts = true
      · exact hdup.mp hd
      · simp [hd] at he
    · intro hnd
      rw [if_pos (hdup.mpr hnd)]
  · have hfalse : hasDuplicate [] pts = false :=
      (hasDuplicate_eq_false _ _).mpr ⟨hn, by simp⟩
    rw [triInit, if_neg (by omega)]
    simp [hfalse]

/-- C3 (witness): the amended theorem at two concrete inputs — a 2-point
duplicate collection reports `InsufficientPoints`, a 3-point duplicate
collection reports `DuplicatePoints`. -/
theorem init_validation_order_witness :
    triInit [((0 : ℚ), (0 : ℚ)), (0, 0)] = .error .insufficientPoints ∧
    triInit [((0 : ℚ), (0 : ℚ)), (1, 1), (0, 0)] = .error .duplicatePoints := by
  constructor
  · exact (init_validation_order _).1 (by norm_num)
  · exact ((init_validation_order _).2.1 (by norm_num)).mpr (by norm_num)

/-- Reading back `count` points consumes nothing but the declared words:
the result always has length `count`. -/
theorem readPoints_length (count : ℕ) (l : List ℕ) :
    (readPoints count l).length = count := by
  induction count generalizing l with
  | zero => rfl
  | succ c ih => simp [readPoints, ih]

/-- C5: point-set decoding fails with `MalformedBuffer` exactly when the
buffer is shorter than 4 bytes or shorter than `4 + count*8` bytes (`count`
the little-endian uint32 at offset 0); a successful decode returns exactly
`count` points, and the points are the raw 32-bit words of the payload —
no coordinate validation, so NaN and Infinity patterns pass through. -/
theorem decode_point_set_spec (data : List ℕ) :
    (decodePointSet data = .error .malformedBuffer ↔
      data.length < 4 ∨ data.length < 4 + read32 data 0 * 8) ∧
    ∀ ps, decodePointSet data = .ok ps →
      ps.length = read32 data 0 ∧
      ps = readPoints (read32 data 0) (data.drop 4) := by
  rw [decodePointSet]
  by_cases h4 : data.length < 4
  · simp [h4]
  · by_cases h8 : data.length < 4 + read32 data 0 * 8
    · simp [h4, h8]
    · simp only [if_neg h4, if_neg h8]
      refine ⟨by simp [h4, h8], fun ps hps => ?_⟩
      cases hps
      exact ⟨readPoints_length _ _, rfl⟩

/-- Packing then reading a 32-bit word is the identity below `2^32`. -/
theorem rd32_le32_append (n : ℕ) (rest : List ℕ) (h : n < 4294967296) :
    rd32 (le32 n ++ rest) = n := by
  simp only [rd32, le32, List.cons_append, List.nil_append, List.getD_cons_zero,
    List.getD_cons_succ]
  omega

/-- Dropping the four bytes of a packed word exposes the tail. -/
theorem drop4_le32_append (n : ℕ) (rest : List ℕ) :
    (le32 n ++ rest).drop 4 = rest := rfl

/-- Reading then repacking the head word reproduces the first four bytes of
any well-formed buffer. -/
theorem le32_rd32_take (l : List ℕ) (h4 : 4 ≤ l.length)
    (hwf : ∀ b ∈ l, b < 256) : le32 (rd32 l) = l.take 4 := by
  rcases l with _ | ⟨a, _ | ⟨b, _ | ⟨c, _ | ⟨d, rest⟩⟩⟩⟩ <;>
    simp only [List.length_nil, List.length_cons] at h4 <;> try omega
  have ha := hwf a (by simp)
  have hb := hwf b (by simp)
  have hc := hwf c (by simp)
  have hd := hwf d (by simp)
  simp only [rd32, le32, List.getD_cons_zero, List.getD_cons_succ,
    List.take_succ_cons, List.take_zero, List.cons.injEq, and_true]
  omega

/-- The payload length is eight bytes per point. -/
theorem ptsBody_length (ps : List (ℕ × ℕ)) : (ptsBody ps).length = 8 * ps.length := by
  induction ps with
  | nil => rfl
  | cons p rest ih => simp [ptsBody, le32] at ih ⊢; omega

/-- Reading back the payload of an encoded point list (with any trailing
bytes) yields the original list, provided every word fits in 32 bits. -/
theorem readPoints_ptsBody (ps : List (ℕ × ℕ)) (rest : List ℕ)
    (hwf : ∀ p ∈ ps, p.1 < 4294967296 ∧ p.2 < 4294967296) :
    readPoints ps.length (ptsBody ps ++ rest) = ps := by
  induction ps generalizing rest with
  | nil => rfl
  | cons p tail ih =>
    have hp := hwf p (by simp)
    have hassoc : ptsBody (p :: tail) ++ rest =
        le32 p.1 ++ (le32 p.2 ++ (ptsBody tail ++ rest)) := by
      simp [ptsBody, List.append_assoc]
    rw [List.length_cons, readPoints, hassoc, rd32_le32_append _ _ hp.1,
      drop4_le32_append, rd32_le32_append _ _ hp.2]
    have hdrop : (le32 p.1 ++ (le32 p.2 ++ (ptsBody tail ++ rest))).drop 8 =
        ptsBody tail ++ rest := by
      rw [show (8 : ℕ) = 4 + 4 by rfl, ← List.drop_drop, drop4_le32_append,
        drop4_le32_append]
    rw [hdrop, ih _ (fun q hq => hwf q (by simp [hq]))]

/-- Re-encoding the points read from a well-formed payload of exactly
`8·count` bytes reproduces the payload. -/
theorem ptsBody_readPoints (count : ℕ) (l : List ℕ)
    (hlen : l.length = 8 * count) (hwf : ∀ b ∈ l, b < 256) :
    ptsBody (readPoints count l) = l := by
  induction count generalizing l with
  | zero =>
    have hnil : l = [] := List.length_eq_zero.mp (by omega)
    subst hnil
    rfl
  | succ c ih =>
    rw [readPoints]
    have h1 : le32 (rd32 l) = l.take 4 :=
      le32_rd32_take l (by omega) hwf
    have h2 : le32 (rd32 (l.drop 4)) = (l.drop 4).take 4 :=
      le32_rd32_take (l.drop 4) (by simp; omega)
        (fun b hb => hwf b (List.mem_of_mem_drop hb))
    have h3 : ptsBody (readPoints c (l.drop 8)) = l.drop 8 :=
      ih (l.drop 8) (by simp; omega)
        (fun b hb => hwf b (List.mem_of_mem_drop hb))
    show le32 (rd32 l) ++ le32 (rd32 (l.drop 4)) ++
      ptsBody (readPoints c (l.drop 8)) = l
    rw [h1, h2, h3, List.append_assoc,
      show l.drop 8 = (l.drop 4).drop 4 by rw [List.drop_drop],
      List.take_append_drop, List.take_append_drop]

/-- C6: the point codec round-trips — a successfully decoded buffer with no
trailing bytes re-encodes byte for byte, and decoding an encoded point list
gives back exactly that list. -/
theorem point_codec_round_trip :
    (∀ data ps, (∀ b ∈ data, b < 256) → decodePointSet data = .ok ps →
      data.length = 4 + read32 data 0 * 8 → encodePointSet ps = data) ∧
    (∀ ps : List (ℕ × ℕ), ps.length < 4294967296 →
      (∀ p ∈ ps, p.1 < 4294967296 ∧ p.2 < 4294967296) →
      decodePointSet (encodePointSet ps) = .ok ps) := by
  constructor
  · intro data ps hwf hdec hexact
    obtain ⟨hlen, hps⟩ := (decode_point_set_spec data).2 ps hdec
    have hcount : read32 data 0 = rd32 data := by simp [read32]
    rw [encodePointSet, hps, readPoints_length,
      ptsBody_readPoints (read32 data 0) (data.drop 4)
        (by simp; omega) (fun b hb => hwf b (List.mem_of_mem_drop hb)),
      hcount, le32_rd32_take data (by omega) hwf, List.take_append_drop]
  · intro ps hlen hwf
    have hbody := readPoints_ptsBody ps [] hwf
    rw [List.append_nil] at hbody
    have hful : encodePointSet ps = le32 ps.length ++ ptsBody ps := rfl
    rw [decodePointSet, if_neg (by simp [hful, le32]),
      show read32 (encodePointSet ps) 0 = ps.length by
        simp [read32, encodePointSet, rd32_le32_append _ _ hlen]]
    rw [if_neg (by simp [hful, le32, ptsBody_length]; omega)]
    rw [show (encodePointSet ps).drop 4 = ptsBody ps from
      drop4_le32_append _ _, hbody]

/-- C6 (witness): the round trip at a concrete one-point buffer — the
pattern `0x3F800000` (float32 `1.0`) paired with `0x00000000`. -/
theorem point_codec_round_trip_witness :
    decodePointSet (encodePointSet [(1065353216, 0)]) = .ok [(1065353216, 0)] ∧
    encodePointSet [(1065353216, 0)] =
      [1, 0, 0, 0, 0, 0, 128, 63, 0, 0, 0, 0] := by
  constructor
  · exact point_codec_round_trip.2 [(1065353216, 0)] (by norm_num)
      (by intro p hp; simp at hp; simp [hp])
  · exact point_codec_round_trip.1 [1, 0, 0, 0, 0, 0, 128, 63, 0, 0, 0, 0]
      [(1065353216, 0)] (by decide) (by rfl) (by rfl)

/-- The first mesh invariant the candidate triangle `t` violates, stated
declaratively in the spec's §3 order given the previously accepted
triangles: indices-count, index-range, distinct-vertices, then the
duplicate check against the normalized sorted-index keys of the accepted
prefix.  This is the spec side of the C8 refinement. -/
def specViol (n : ℕ) (accepted : List TriZ) (t : TriZ) : Option MeshErr :=
  if t.length ≠ 3 then some .invalidTriangleIndexCount
  else if ¬ ∀ v ∈ t, 0 ≤ v ∧ v < (n : ℤ) then some .triangleIndexOutOfRange
  else if ¬ t.Nodup then some .triangleNonDistinctVertices
  else if sortKey t ∈ accepted.map sortKey then some .duplicateTriangle
  else none

/-- The spec-side validation sweep: report the first violation of the first
offending triangle, extending the accepted prefix on success. -/
def specValidateGo (n : ℕ) (accepted : List TriZ) : List TriZ → Except MeshErr Unit
  | [] => .ok ()
  | t :: rest =>
    match specViol n accepted t with
    | some e => .error e
    | none => specValidateGo n (accepted ++ [t]) rest

/-- The range check of the source (destructure and compare each index)
agrees with the declarative bound over a 3-index triangle. -/
theorem checkRange_iff (i j k : ℤ) (n : ℕ) :
    checkRange [i, j, k] n = true ↔ ∀ v ∈ [i, j, k], 0 ≤ v ∧ v < (n : ℤ) := by
  simp [checkRange]
  omega

/-- The distinct-vertices check of the source (`len(set(triangle)) == 3`)
agrees with pairwise distinctness over a 3-index triangle. -/
theorem checkDistinct_iff (i j k : ℤ) :
    checkDistinct [i, j, k] = true ↔ ([i, j, k] : TriZ).Nodup := by
  by_cases hij : i = j <;> by_cases hik : i = k <;> by_cases hjk : j = k <;>
    simp [checkDistinct, List.dedup_cons_of_mem, List.dedup_cons_of_not_mem,
      hij, hik, hjk]

/-- The source loop with its running `seen` key set computes the same
result as the spec-side sweep whenever `seen` holds exactly the keys of the
accepted prefix. -/
theorem validateGo_eq_specGo (ts : List TriZ) : ∀ (n : ℕ) (seen accepted : List TriZ),
    (∀ key, key ∈ seen ↔ key ∈ accepted.map sortKey) →
    validateGo n seen ts = specValidateGo n accepted ts := by
  induction ts with
  | nil => intros; rfl
  | cons t rest ih =>
    intro n seen accepted hseen
    show (match validateStep n seen t with
      | Except.error e => Except.error e
      | Except.ok seen' => validateGo n seen' rest) = _
    by_cases hc : t.length = 3
    · obtain ⟨i, j, k, rfl⟩ := List.length_eq_three.mp hc
      by_cases hr : ∀ v ∈ ([i, j, k] : TriZ), 0 ≤ v ∧ v < (n : ℤ)
      · by_cases hd : ([i, j, k] : TriZ).Nodup
        · by_cases hk : sortKey [i, j, k] ∈ accepted.map sortKey
          · rw [validateStep, if_neg (by simp [checkCount]),
              if_neg (by simp [(checkRange_iff i j k n).mpr hr]),
              if_neg (by simp [(checkDistinct_iff i j k).mpr hd]),
              if_pos ((hseen _).mpr hk)]
            rw [specValidateGo, specViol, if_neg (by simp),
              if_neg (not_not_intro hr), if_neg (not_not_intro hd), if_pos hk]
          · rw [validateStep, if_neg (by simp [checkCount]),
              if_neg (by simp [(checkRange_iff i j k n).mpr hr]),
              if_neg (by simp [(checkDistinct_iff i j k).mpr hd]),
              if_neg (fun hmem => hk ((hseen _).mp hmem))]
            rw [specValidateGo, specViol, if_neg (by simp),
              if_neg (not_not_intro hr), if_neg (not_not_intro hd), if_neg hk]
            exact ih n _ _ (by
              intro key
              simp only [List.mem_cons, hseen key, List.map_append,
                List.map_cons, List.map_nil, List.mem_append,
                List.mem_singleton]
              tauto)
        · rw [validateStep, if_neg (by simp [checkCount]),
            if_neg (by simp [(checkRange_iff i j k n).mpr hr]),
            if_pos (by
              simp only [Bool.not_eq_eq_eq_not, Bool.not_true]
              rw [← Bool.not_eq_true, checkDistinct_iff]
              exact hd)]
          rw [specValidateGo, specViol, if_neg (by simp),
            if_neg (not_not_intro hr), if_pos hd]
      · rw [validateStep, if_neg (by simp [checkCount]),
          if_pos (by
            simp only [Bool.not_eq_eq_eq_not, Bool.not_true]
            rw [← Bool.not_eq_true, checkRange_iff]
            exact hr)]
        rw [specValidateGo, specViol, if_neg (by simp), if_pos hr]
    · rw [validateStep, if_pos (by simp [checkCount, hc])]
      rw [specValidateGo, specViol, if_pos hc]

/-- C8 (amended): mesh validation runs the four invariant checks in order —
indices-count, index-range, distinct-vertices, duplicate-triangle with a
sorted-index key against the accepted prefix — and fails fast with the
first invariant violated by the first offending triangle; the error
identifies the violated invariant (each check has its own error) but does
not carry the offending triangle. -/
theorem validate_refines_first_violation (n : ℕ) (ts : List TriZ) :
    validateTriangles n ts = specValidateGo n [] ts :=
  validateGo_eq_specGo ts n [] [] (by simp)

/-- C8 (counterexample): the reported error does not name the offending
triangle — two inputs whose sole (and differing) offending triangles
violate the same invariant produce identical error values, so the error
determines only the invariant, never the triangle. -/
theorem validate_error_not_named_counterexample :
    validateTriangles 5 [[0]] = .error .invalidTriangleIndexCount ∧
    validateTriangles 5 [[1, 2]] = .error .invalidTriangleIndexCount ∧
    ([[0]] : List TriZ) ≠ [[1, 2]] := by
  refine ⟨rfl, rfl, by simp⟩

/-- Success characterization of the validation loop: it accepts exactly
when every triangle passes the three per-triangle checks, the normalized
keys are pairwise distinct, and none collides with the incoming `seen`
set. -/
theorem validateGo_ok_iff (ts : List TriZ) : ∀ (n : ℕ) (seen : List TriZ),
    validateGo n seen ts = .ok () ↔
      ((∀ t ∈ ts, checkCount t = true ∧ checkRange t n = true ∧
          checkDistinct t = true) ∧
        ts.Pairwise (fun a b => sortKey a ≠ sortKey b) ∧
        ∀ t ∈ ts, sortKey t ∉ seen) := by
  induction ts with
  | nil => simp [validateGo]
  | cons t rest ih =>
    intro n seen
    show (match validateStep n seen t with
      | Except.error e => Except.error e
      | Except.ok seen' => validateGo n seen' rest) = Except.ok () ↔ _
    rw [validateStep]
    by_cases h1 : checkCount t = true
    · by_cases h2 : checkRange t n = true
      · by_cases h3 : checkDistinct t = true
        · rw [if_neg (by simp [h1]), if_neg (by simp [h2]), if_neg (by simp [h3])]
          by_cases h4 : sortKey t ∈ seen
          · rw [if_pos h4]
            constructor
            · intro h; cases h
            · rintro ⟨-, -, hnot⟩
              exact absurd h4 (hnot t (by simp))
          · rw [if_neg h4]
            show validateGo n (sortKey t :: seen) rest = Except.ok () ↔ _
            rw [ih n (sortKey t :: seen)]
            simp only [List.forall_mem_cons, List.pairwise_cons]
            constructor
            · rintro ⟨hchecks, hpw, hseen⟩
              refine ⟨⟨⟨h1, h2, h3⟩, hchecks⟩,
                ⟨fun u hu heq => hseen u hu (by simp [heq]), hpw⟩,
                ⟨h4, fun u hu hmem => hseen u hu (by simp [hmem])⟩⟩
            · rintro ⟨⟨-, hchecks⟩, ⟨hhead, hpw⟩, ⟨-, hseen⟩⟩
              refine ⟨hchecks, hpw, fun u hu hmem => ?_⟩
              rcases List.mem_cons.mp hmem with heq | hm
              · exact hhead u hu heq.symm
              · exact hseen u hu hm
        · rw [if_neg (by simp [h1]), if_neg (by simp [h2]), if_pos (by simp [h3])]
          constructor
          · intro h; cases h
          · rintro ⟨hchecks, -, -⟩
            exact absurd (hchecks t (by simp)).2.2 h3
      · rw [if_neg (by simp [h1]), if_pos (by simp [h2])]
        constructor
        · intro h; cases h
        · rintro ⟨hchecks, -, -⟩
          exact absurd (hchecks t (by simp)).2.1 h2
    · rw [if_pos (by simp [h1])]
      constructor
      · intro h; cases h
      · rintro ⟨hchecks, -, -⟩
        exact absurd (hchecks t (by simp)).1 h1

/-- C5 (witness): a 12-byte buffer declaring one point whose coordinates
are the float32 bit patterns of NaN (`0x7FC00000`) and `+Infinity`
(`0x7F800000`) decodes successfully into exactly that raw pair. -/
theorem decode_point_set_spec_witness :
    decodePointSet [1, 0, 0, 0, 0, 0, 192, 127, 0, 0, 128, 127] =
      .ok [(2143289344, 2139095040)] ∧
    [((2143289344 : ℕ), (2139095040 : ℕ))].length =
      read32 [1, 0, 0, 0, 0, 0, 192, 127, 0, 0, 128, 127] 0 := by
  refine ⟨rfl, ?_⟩
  have h := (decode_point_set_spec
    [1, 0, 0, 0, 0, 0, 192, 127, 0, 0, 128, 127]).2
    [(2143289344, 2139095040)] (by rfl)
  exact h.1

/-- Decoding an encoded point list with arbitrary trailing bytes still
returns exactly that list — trailing bytes beyond the declared count are
ignored. -/
theorem decodePointSet_encode_append (ps : List (ℕ × ℕ)) (rest : List ℕ)
    (hlen : ps.length < 4294967296)
    (hwf : ∀ p ∈ ps, p.1 < 4294967296 ∧ p.2 < 4294967296) :
    decodePointSet (encodePointSet ps ++ rest) = .ok ps := by
  have hful : encodePointSet ps ++ rest =
      le32 ps.length ++ (ptsBody ps ++ rest) := by
    simp [encodePointSet]
  rw [decodePointSet, if_neg (by simp [hful, le32]),
    show read32 (encodePointSet ps ++ rest) 0 = ps.length by
      rw [show read32 (encodePointSet ps ++ rest) 0 =
          rd32 (encodePointSet ps ++ rest) from rfl, hful,
        rd32_le32_append _ _ hlen]]
  rw [if_neg (by simp [hful, le32, ptsBody_length]; omega)]
  rw [show (encodePointSet ps ++ rest).drop 4 = ptsBody ps ++ rest by
    rw [hful, drop4_le32_append], readPoints_ptsBody ps rest hwf]

/-- The mesh payload devotes exactly 12 bytes to each 3-index triangle. -/
theorem encodeTris_length (ts : List TriZ) (hsh : ∀ t ∈ ts, t.length = 3) :
    (ts.flatMap encodeTriZ).length = 12 * ts.length := by
  induction ts with
  | nil => rfl
  | cons t rest ih =>
    obtain ⟨i, j, k, rfl⟩ := List.length_eq_three.mp (hsh t (by simp))
    have := ih (fun u hu => hsh u (by simp [hu]))
    simp [encodeTriZ, le32, this]
    omega

/-- Reading back the triangle payload of an encoded triangle list (with any
trailing bytes) yields the original list, provided every triangle is a
3-index tuple of indices in `[0, 2^32)`. -/
theorem readTris_encodeTris (ts : List TriZ) (rest : List ℕ)
    (hsh : ∀ t ∈ ts, ∃ i j k : ℤ, t = [i, j, k] ∧
      0 ≤ i ∧ i < 4294967296 ∧ 0 ≤ j ∧ j < 4294967296 ∧
      0 ≤ k ∧ k < 4294967296) :
    readTris ts.length (ts.flatMap encodeTriZ ++ rest) = ts := by
  induction ts generalizing rest with
  | nil => rfl
  | cons t tail ih =>
    obtain ⟨i, j, k, rfl, hi0, hi, hj0, hj, hk0, hk⟩ := hsh t (by simp)
    have hassoc : (([i, j, k] :: tail).flatMap encodeTriZ) ++ rest =
        le32 i.toNat ++ (le32 j.toNat ++
          (le32 k.toNat ++ (tail.flatMap encodeTriZ ++ rest))) := by
      simp [encodeTriZ, List.append_assoc]
    set R := tail.flatMap encodeTriZ ++ rest with hR
    have d4 : ((([i, j, k] :: tail).flatMap encodeTriZ) ++ rest).drop 4 =
        le32 j.toNat ++ (le32 k.toNat ++ R) := by
      rw [hassoc, drop4_le32_append]
    have d8 : ((([i, j, k] :: tail).flatMap encodeTriZ) ++ rest).drop 8 =
        le32 k.toNat ++ R := by
      rw [show (8 : ℕ) = 4 + 4 from rfl, ← List.drop_drop, d4,
        drop4_le32_append]
    have d12 : ((([i, j, k] :: tail).flatMap encodeTriZ) ++ rest).drop 12 =
        R := by
      rw [show (12 : ℕ) = 4 + 8 from rfl, ← List.drop_drop, d4,
        show (8 : ℕ) = 4 + 4 from rfl, ← List.drop_drop, drop4_le32_append,
        drop4_le32_append]
    rw [List.length_cons, readTris, d4, d8, d12, hassoc,
      rd32_le32_append _ _ (by omega), rd32_le32_append _ _ (by omega),
      rd32_le32_append _ _ (by omega),
      Int.toNat_of_nonneg hi0, Int.toNat_of_nonneg hj0,
      Int.toNat_of_nonneg hk0, hR,
      ih rest (fun u hu => hsh u (by simp [hu]))]

/-- A triangle accepted by the count and range checks is a 3-index tuple
with every index in `[0, n)`. -/
theorem checks_shape (n : ℕ) (t : TriZ) (h1 : checkCount t = true)
    (h2 : checkRange t n = true) :
    ∃ i j k : ℤ, t = [i, j, k] ∧ 0 ≤ i ∧ i < (n : ℤ) ∧ 0 ≤ j ∧ j < (n : ℤ) ∧
      0 ≤ k ∧ k < (n : ℤ) := by
  obtain ⟨i, j, k, rfl⟩ := List.length_eq_three.mp
    (by simpa [checkCount] using h1)
  have hr := (checkRange_iff i j k n).mp h2
  simp only [List.mem_cons, List.not_mem_nil, or_false, forall_eq_or_imp,
    forall_eq] at hr
  exact ⟨i, j, k, rfl, hr.1.1, hr.1.2, hr.2.1.1, hr.2.1.2, hr.2.2.1, hr.2.2.2⟩

/-- C7: a mesh decoder exists that inverts the mesh encoder — for every
valid mesh (its triangle list passes the four construction invariants and
its counts and patterns fit 32 bits, as `struct.pack` requires), decoding
the encoded bytes returns the mesh unchanged. -/
theorem mesh_codec_round_trip (m : MeshB)
    (hlen : m.points.length < 4294967296)
    (hwfp : ∀ p ∈ m.points, p.1 < 4294967296 ∧ p.2 < 4294967296)
    (htc : m.tris.length < 4294967296)
    (hval : validateTriangles m.points.length m.tris = .ok ()) :
    decodeMesh (encodeMesh m) = .ok m := by
  obtain ⟨points, tris⟩ := m
  simp only at hlen hwfp htc hval
  have hchecks := ((validateGo_ok_iff tris points.length []).mp hval).1
  have hsh : ∀ t ∈ tris, ∃ i j k : ℤ, t = [i, j, k] ∧
      0 ≤ i ∧ i < 4294967296 ∧ 0 ≤ j ∧ j < 4294967296 ∧
      0 ≤ k ∧ k < 4294967296 := by
    intro t ht
    obtain ⟨hc, hr, -⟩ := hchecks t ht
    obtain ⟨i, j, k, rfl, h⟩ := checks_shape points.length t hc hr
    exact ⟨i, j, k, rfl, by omega⟩
  have hsh3 : ∀ t ∈ tris, t.length = 3 := by
    intro t ht
    obtain ⟨i, j, k, rfl, -⟩ := hsh t ht
    rfl
  have hassoc : encodeMesh ⟨points, tris⟩ =
      encodePointSet points ++
        (le32 tris.length ++ tris.flatMap encodeTriZ) := by
    simp [encodeMesh]
  have hdecp : decodePointSet (encodeMesh ⟨points, tris⟩) = .ok points := by
    rw [hassoc]
    exact decodePointSet_encode_append points _ hlen hwfp
  have hlenp : (encodePointSet points).length = 4 + points.length * 8 := by
    simp [encodePointSet, le32, ptsBody_length]
    omega
  have hrest : (encodeMesh ⟨points, tris⟩).drop (4 + points.length * 8) =
      le32 tris.length ++ tris.flatMap encodeTriZ := by
    rw [hassoc, ← hlenp, List.drop_left]
  have hrestlen : (le32 tris.length ++ tris.flatMap encodeTriZ).length =
      4 + 12 * tris.length := by
    simp [le32, encodeTris_length tris hsh3]
    omega
  rw [decodeMesh]
  simp only [hdecp]
  rw [hrest, if_neg (by rw [hrestlen]; omega)]
  rw [show rd32 (le32 tris.length ++ tris.flatMap encodeTriZ) =
      tris.length from rd32_le32_append _ _ htc]
  rw [if_neg (by rw [hrestlen]; omega)]
  rw [show (le32 tris.length ++ tris.flatMap encodeTriZ).drop 4 =
      tris.flatMap encodeTriZ from drop4_le32_append _ _]
  rw [show readTris tris.length (tris.flatMap encodeTriZ) = tris by
    rw [← List.append_nil (tris.flatMap encodeTriZ)]
    exact readTris_encodeTris tris [] hsh]
  rw [hval]

/-- C7 (witness): the mesh round trip at a concrete valid mesh — three
points and the single triangle `[0, 1, 2]`. -/
theorem mesh_codec_round_trip_witness :
    decodeMesh (encodeMesh ⟨[(0, 0), (1, 1), (2, 2)], [[0, 1, 2]]⟩) =
      .ok ⟨[(0, 0), (1, 1), (2, 2)], [[0, 1, 2]]⟩ :=
  mesh_codec_round_trip ⟨[(0, 0), (1, 1), (2, 2)], [[0, 1, 2]]⟩
    (by norm_num) (by intro p hp; fin_cases hp <;> norm_num)
    (by norm_num) (by rfl)

/-- Collinearity of three points (vanishing cross product), used to state
the non-collinearity side conditions of the triangulation claims. -/
def collinear3 (p q r : Pt) : Prop :=
  (q.1 - p.1) * (r.2 - p.2) - (r.1 - p.1) * (q.2 - p.2) = 0

/-- C1 (counterexample): three pairwise-distinct, *non-collinear* points at
scale `1e-7` triangulate successfully but into an *empty* mesh, not one
triangle: the super-triangle of such a tiny cloud has `|d| ≈ 1.7e-11` below
the `1e-9` cutoff, so its circumcircle test is forced to `False`, no cavity
ever forms, and the final cleanup discards everything. -/
theorem tiny_triangle_counterexample :
    ¬ collinear3 ((0 : ℚ), (0 : ℚ)) (1 / 10000000, 0) (0, 1 / 10000000) ∧
    ([((0 : ℚ), (0 : ℚ)), (1 / 10000000, 0), (0, 1 / 10000000)] :
      List Pt).Nodup ∧
    triangulate [((0 : ℚ), (0 : ℚ)), (1 / 10000000, 0), (0, 1 / 10000000)] =
      .ok ⟨[((0 : ℚ), (0 : ℚ)), (1 / 10000000, 0), (0, 1 / 10000000)], []⟩ := by
  refine ⟨by norm_num [collinear3], by norm_num [Prod.ext_iff], ?_⟩
  norm_num [triangulate, mkTriangles, validateTriangles, validateGo,
    bowyerWatson, allPoints, superNodes, minX, maxX, minY, maxY,
    insertLoop, insertPoint, cavityBoundary, sharedEdge, edgesOf, sortEdge,
    isPointInCircumcircle, circum, eps, vertsT, List.erase, List.filter]

/-- C1 (amended): for the listed example — and unit-scale non-degenerate
triples generally, though not for every non-collinear triple — the three
points `(0,0), (1,0), (0,1)` triangulate into exactly one triangle whose
vertex-index set is `{0, 1, 2}`. -/
theorem three_points_single_triangle :
    triangulate [((0 : ℚ), (0 : ℚ)), (1, 0), (0, 1)] =
      .ok ⟨[((0 : ℚ), (0 : ℚ)), (1, 0), (0, 1)], [(1, 0, 2)]⟩ ∧
    [(1, 0, 2)].length = 1 ∧
    (List.insertionSort (· ≤ ·) (vertsT (1, 0, 2))) = [0, 1, 2] := by
  refine ⟨?_, rfl, rfl⟩
  norm_num [triangulate, mkTriangles, validateTriangles, validateGo,
    validateStep, checkCount, checkRange, checkDistinct, sortKey, toZ,
    bowyerWatson, allPoints, superNodes, minX, maxX, minY, maxY,
    insertLoop, insertPoint, cavityBoundary, sharedEdge, edgesOf, sortEdge,
    isPointInCircumcircle, circum, eps, vertsT, List.erase, List.filter]

/-- C2: the unit square `(0,0), (1,0), (1,1), (0,1)` triangulates into
exactly 2 triangles, every referenced index lies in `[0, 4)`, and the union
of the referenced indices is `{0, 1, 2, 3}`. -/
theorem square_two_triangles :
    triangulate [((0 : ℚ), (0 : ℚ)), (1, 0), (1, 1), (0, 1)] =
      .ok ⟨[((0 : ℚ), (0 : ℚ)), (1, 0), (1, 1), (0, 1)],
        [(1, 0, 2), (2, 0, 3)]⟩ ∧
    [(1, 0, 2), (2, 0, 3)].length = 2 ∧
    (([(1, 0, 2), (2, 0, 3)] : List Tri).all fun t =>
      (vertsT t).all fun v => decide (v < 4)) = true ∧
    ((List.range 4).all fun j =>
      ([(1, 0, 2), (2, 0, 3)] : List Tri).any fun t =>
        (vertsT t).contains j) = true := by
  refine ⟨?_, rfl, by decide, by decide⟩
  norm_num [triangulate, mkTriangles, validateTriangles, validateGo,
    validateStep, checkCount, checkRange, checkDistinct, sortKey, toZ,
    bowyerWatson, allPoints, superNodes, minX, maxX, minY, maxY,
    insertLoop, insertPoint, cavityBoundary, sharedEdge, edgesOf, sortEdge,
    isPointInCircumcircle, circum, eps, vertsT, List.erase, List.filter]

/-- C9: a triangulation run never alters the point collection it was given —
the returned mesh holds exactly the input point sequence, and the run-local
extended list only *appends* the three synthetic vertices after an
unchanged copy of the input. -/
theorem triangulate_preserves_pointset (pts : List Pt) :
    (∀ m, triangulate pts = .ok m → m.pointset = pts) ∧
    (allPoints pts).take pts.length = pts := by
  refine ⟨?_, List.take_left _ _⟩
  intro m h
  rw [triangulate, mkTriangles] at h
  split at h
  · cases h
  · cases h
    rfl

/-- C9 (witness): the preservation theorem at the concrete run on
`(0,0), (1,0), (0,1)`. -/
theorem triangulate_preserves_pointset_witness :
    (⟨[((0 : ℚ), (0 : ℚ)), (1, 0), (0, 1)], [(1, 0, 2)]⟩ :
      Triangles).pointset = [((0 : ℚ), (0 : ℚ)), (1, 0), (0, 1)] := by
  refine (triangulate_preserves_pointset _).1 _ ?_
  norm_num [triangulate, mkTriangles, validateTriangles, validateGo,
    validateStep, checkCount, checkRange, checkDistinct, sortKey, toZ,
    bowyerWatson, allPoints, superNodes, minX, maxX, minY, maxY,
    insertLoop, insertPoint, cavityBoundary, sharedEdge, edgesOf, sortEdge,
    isPointInCircumcircle, circum, eps, vertsT, List.erase, List.filter]

/-! ### C10: the triangle list handed to the validating construction always
satisfies all four mesh invariants -/

/-- The three vertex indices of a triangle are pairwise distinct. -/
def distinctVerts (t : Tri) : Prop :=
  t.1 ≠ t.2.1 ∧ t.2.1 ≠ t.2.2 ∧ t.1 ≠ t.2.2

/-- The normalized vertex-set key of a triangulator triangle (the `ℕ`
analogue of the validator's `sortKey`). -/
def keyN (t : Tri) : List ℕ := List.insertionSort (· ≤ ·) (vertsT t)

/-- The working-set invariant after the first `i` insertions over `n` input
points: every triangle has pairwise-distinct vertices drawn from the
already-inserted indices `[0, i)` or the synthetic indices `[n, n+3)`, and
no two triangles share a vertex set. -/
def Inv (n i : ℕ) (tr : List Tri) : Prop :=
  (∀ t ∈ tr, distinctVerts t ∧
    ∀ v ∈ vertsT t, v < i ∨ (n ≤ v ∧ v < n + 3)) ∧
  tr.Pairwise fun a b => keyN a ≠ keyN b

/-- Erasing elements that all differ from the head leaves the head in
place. -/
theorem foldl_erase_cons {α : Type} [BEq α] [LawfulBEq α] (ys : List α) (x : α)
    (l : List α) (h : ∀ y ∈ ys, y ≠ x) :
    ys.foldl List.erase (x :: l) = x :: ys.foldl List.erase l := by
  induction ys generalizing l with
  | nil => rfl
  | cons y ys ih =>
    rw [List.foldl_cons, List.foldl_cons,
      List.erase_cons_tail (by simpa using (h y (by simp)).symm),
      ih (l.erase y) fun z hz => h z (by simp [hz])]

/-- Python's "remove each `bad` element" loop: removing every element of
`l.filter p` from `l` by first-occurrence erasure leaves `l.filter (!p)`. -/
theorem foldl_erase_filter {α : Type} [BEq α] [LawfulBEq α] (l : List α)
    (p : α → Bool) :
    (l.filter p).foldl List.erase l = l.filter fun a => !(p a) := by
  induction l with
  | nil => rfl
  | cons x xs ih =>
    by_cases hx : p x = true
    · rw [List.filter_cons_of_pos hx, List.foldl_cons, List.erase_cons_head,
        ih, List.filter_cons_of_neg (by simp [hx])]
    · rw [List.filter_cons_of_neg (by simp [hx]),
        foldl_erase_cons _ x xs (fun y hy hyx =>
          hx (hyx ▸ (List.mem_filter.mp hy).2)),
        ih, List.filter_cons_of_pos (by simp [hx])]

/-- Membership in the normalized key is membership in the vertex list. -/
theorem mem_keyN (v : ℕ) (t : Tri) : v ∈ keyN t ↔ v ∈ vertsT t :=
  (List.perm_insertionSort _ _).mem_iff

/-- Equal keys mean equal vertex sets. -/
theorem keyN_eq_mem {a b : Tri} (h : keyN a = keyN b) (v : ℕ) :
    v ∈ vertsT a ↔ v ∈ vertsT b := by
  rw [← mem_keyN, h, mem_keyN]

/-- Normalised edges are equal exactly when the unordered endpoint pairs
coincide. -/
theorem sortEdge_eq_iff (e f : ℕ × ℕ) :
    sortEdge e = sortEdge f ↔
      (e.1 = f.1 ∧ e.2 = f.2) ∨ (e.1 = f.2 ∧ e.2 = f.1) := by
  rcases e with ⟨a, b⟩
  rcases f with ⟨c, d⟩
  rw [sortEdge, sortEdge]
  dsimp only
  split <;> split <;> simp [Prod.ext_iff] <;> omega

/-- Each edge of a triangle with distinct vertices has distinct endpoints,
both of them vertices of the triangle. -/
theorem edge_mem_facts (t : Tri) (hd : distinctVerts t) (e : ℕ × ℕ)
    (he : e ∈ edgesOf t) :
    e.1 ≠ e.2 ∧ e.1 ∈ vertsT t ∧ e.2 ∈ vertsT t := by
  obtain ⟨a, b, c⟩ := t
  obtain ⟨h1, h2, h3⟩ := hd
  simp only [edgesOf, List.mem_cons, List.not_mem_nil, or_false] at he
  rcases he with rfl | rfl | rfl <;> simp [vertsT] <;> tauto

/-- The three edges of a triangle with distinct vertices have pairwise
distinct normalised forms. -/
theorem edges_pairwise_sortEdge (t : Tri) (hd : distinctVerts t) :
    (edgesOf t).Pairwise fun e f => sortEdge e ≠ sortEdge f := by
  obtain ⟨a, b, c⟩ := t
  obtain ⟨h1, h2, h3⟩ := hd
  dsimp only at h1 h2 h3
  simp [edgesOf, List.pairwise_cons, sortEdge_eq_iff]
  omega

/-- Unfolding membership in the cavity boundary. -/
theorem mem_cavityBoundary (bad : List Tri) (e : ℕ × ℕ) :
    e ∈ cavityBoundary bad ↔
      ∃ t ∈ bad, e ∈ edgesOf t ∧ sharedEdge bad t e = false := by
  simp [cavityBoundary, List.mem_filter]

/-- Core cavity-boundary argument: over a duplicate-free list of bad
triangles with distinct vertices, the retained boundary edges have pairwise
distinct normalised forms — an edge shared by two bad triangles is dropped
from both, and one triangle never lists the same unordered edge twice. -/
theorem cavityBoundary_aux (bad : List Tri)
    (hd : ∀ t ∈ bad, distinctVerts t) :
    ∀ l : List Tri, (∀ t ∈ l, t ∈ bad) → l.Nodup →
    (l.flatMap fun tri => (edgesOf tri).filter fun e =>
      !(sharedEdge bad tri e)).Pairwise fun e f => sortEdge e ≠ sortEdge f := by
  intro l
  induction l with
  | nil => simp
  | cons t rest ih =>
    intro hsub hnd
    rw [List.flatMap_cons, List.pairwise_append]
    refine ⟨(edges_pairwise_sortEdge t (hd t (hsub t (by simp)))).filter _,
      ih (fun u hu => hsub u (by simp [hu])) (List.Nodup.of_cons hnd), ?_⟩
    intro e he f hf heq
    obtain ⟨he1, he2⟩ := List.mem_filter.mp he
    obtain ⟨u, hu, hfu⟩ := List.mem_flatMap.mp hf
    obtain ⟨hf1, -⟩ := List.mem_filter.mp hfu
    have hut : u ≠ t := by
      rintro rfl
      exact (List.nodup_cons.mp hnd).1 hu
    have hshared : sharedEdge bad t e = true := by
      rw [sharedEdge, List.any_eq_true]
      refine ⟨u, hsub u (by simp [hu]), ?_⟩
      rw [Bool.and_eq_true, decide_eq_true_eq]
      refine ⟨hut, ?_⟩
      show ((edgesOf u).map sortEdge).elem (sortEdge e) = true
      rw [List.elem_iff, heq]
      exact List.mem_map_of_mem sortEdge hf1
    rw [hshared] at he2
    cases he2

/-- The cavity boundary of a duplicate-free bad set has pairwise distinct
normalised edges. -/
theorem cavityBoundary_pairwise (bad : List Tri)
    (hd : ∀ t ∈ bad, distinctVerts t) (hnd : bad.Nodup) :
    (cavityBoundary bad).Pairwise fun e f => sortEdge e ≠ sortEdge f :=
  cavityBoundary_aux bad hd bad (fun _ h => h) hnd

/-- Two cavity triangles built from boundary edges and the fresh index `i`
have equal vertex sets only when their edges have the same normalised
form. -/
theorem keyN_newTri (e f : ℕ × ℕ) (i : ℕ)
    (_he : e.1 ≠ i ∧ e.2 ≠ i ∧ e.1 ≠ e.2)
    (hf : f.1 ≠ i ∧ f.2 ≠ i ∧ f.1 ≠ f.2)
    (h : keyN (e.1, e.2, i) = keyN (f.1, f.2, i)) :
    sortEdge e = sortEdge f := by
  have h1 := (keyN_eq_mem h e.1).mp (by simp [vertsT])
  have h2 := (keyN_eq_mem h e.2).mp (by simp [vertsT])
  have h3 := (keyN_eq_mem h f.1).mpr (by simp [vertsT])
  have h4 := (keyN_eq_mem h f.2).mpr (by simp [vertsT])
  simp only [vertsT, List.mem_cons, List.not_mem_nil, or_false] at h1 h2 h3 h4
  rw [sortEdge_eq_iff]
  omega

/-- One Bowyer-Watson insertion step preserves the working-set invariant:
removal keeps a sublist, and the new cavity triangles have distinct
vertices, stay inside `[0, i+1) ∪ [n, n+3)`, and collide with no surviving
or sibling triangle. -/
theorem insertPoint_inv (ap : List Pt) (n i : ℕ) (p : Pt) (tr : List Tri)
    (hinv : Inv n i tr) (hi : i < n) :
    Inv n (i + 1) (insertPoint ap tr i p) := by
  obtain ⟨hok, hpw⟩ := hinv
  show Inv n (i + 1)
    ((tr.filter fun t => isPointInCircumcircle p t ap).foldl List.erase tr ++
      (cavityBoundary (tr.filter fun t => isPointInCircumcircle p t ap)).map
        fun e => (e.1, e.2, i))
  rw [foldl_erase_filter]
  set bad := tr.filter fun t => isPointInCircumcircle p t ap with hbad
  have hbad_sub : ∀ t ∈ bad, t ∈ tr := fun t ht => (List.mem_filter.mp ht).1
  have hbad_d : ∀ t ∈ bad, distinctVerts t :=
    fun t ht => (hok t (hbad_sub t ht)).1
  have hbad_pw : bad.Pairwise (fun a b => keyN a ≠ keyN b) := hpw.filter _
  have hbad_nd : bad.Nodup :=
    hbad_pw.imp fun hab heq => hab (congrArg keyN heq)
  have hpoly := cavityBoundary_pairwise bad hbad_d hbad_nd
  have hpoly_mem : ∀ e ∈ cavityBoundary bad, e.1 ≠ e.2 ∧
      (e.1 < i ∨ (n ≤ e.1 ∧ e.1 < n + 3)) ∧
      (e.2 < i ∨ (n ≤ e.2 ∧ e.2 < n + 3)) := by
    intro e he
    obtain ⟨t, ht, he1, -⟩ := (mem_cavityBoundary bad e).mp he
    obtain ⟨hne, hm1, hm2⟩ := edge_mem_facts t (hbad_d t ht) e he1
    exact ⟨hne, (hok t (hbad_sub t ht)).2 e.1 hm1,
      (hok t (hbad_sub t ht)).2 e.2 hm2⟩
  constructor
  · intro t ht
    rcases List.mem_append.mp ht with hl | hr
    · obtain ⟨htr, -⟩ := List.mem_filter.mp hl
      obtain ⟨hd, hb⟩ := hok t htr
      refine ⟨hd, fun v hv => ?_⟩
      rcases hb v hv with h | h
      · exact Or.inl (by omega)
      · exact Or.inr h
    · obtain ⟨e, he, rfl⟩ := List.mem_map.mp hr
      obtain ⟨hne, h1, h2⟩ := hpoly_mem e he
      refine ⟨⟨hne, by dsimp only; omega, by dsimp only; omega⟩, fun v hv => ?_⟩
      simp only [vertsT, List.mem_cons, List.not_mem_nil, or_false] at hv
      rcases hv with rfl | rfl | rfl
      · rcases h1 with h | h
        · exact Or.inl (by omega)
        · exact Or.inr h
      · rcases h2 with h | h
        · exact Or.inl (by omega)
        · exact Or.inr h
      · exact Or.inl (by omega)
  · rw [List.pairwise_append]
    refine ⟨hpw.filter _, ?_, ?_⟩
    · rw [List.pairwise_map]
      refine hpoly.imp_of_mem ?_
      intro e f he hf hne heq
      obtain ⟨hne1, he1, he2⟩ := hpoly_mem e he
      obtain ⟨hnf1, hf1, hf2⟩ := hpoly_mem f hf
      exact hne (keyN_newTri e f i ⟨by omega, by omega, hne1⟩
        ⟨by omega, by omega, hnf1⟩ heq)
    · intro a ha b hb
      obtain ⟨e, he, rfl⟩ := List.mem_map.mp hb
      intro heq
      have hmem : i ∈ vertsT a := (keyN_eq_mem heq i).mpr (by simp [vertsT])
      obtain ⟨htr, -⟩ := List.mem_filter.mp ha
      rcases (hok a htr).2 i hmem with h | h
      · omega
      · omega

/-- The full insertion loop preserves the invariant through all `n`
insertions. -/
theorem insertLoop_inv (ap : List Pt) (n : ℕ) :
    ∀ (rest : List Pt) (tr : List Tri) (i : ℕ), i + rest.length = n →
      Inv n i tr → Inv n n (insertLoop ap tr i rest) := by
  intro rest
  induction rest with
  | nil =>
    intro tr i h hinv
    rw [insertLoop]
    have : i = n := by simpa using h
    exact this ▸ hinv
  | cons p rest ih =>
    intro tr i h hinv
    rw [insertLoop]
    have hrl : i < n := by simp at h; omega
    exact ih _ (i + 1) (by simp at h ⊢; omega)
      (insertPoint_inv ap n i p tr hinv hrl)

/-- The seeded working set — just the super-triangle — satisfies the
invariant before any insertion. -/
theorem inv_init (n : ℕ) : Inv n 0 [(n, n + 1, n + 2)] := by
  constructor
  · intro t ht
    simp only [List.mem_singleton] at ht
    subst ht
    refine ⟨⟨by dsimp only; omega, by dsimp only; omega,
      by dsimp only; omega⟩, fun v hv => ?_⟩
    simp only [vertsT, List.mem_cons, List.not_mem_nil, or_false] at hv
    rcases hv with rfl | rfl | rfl <;> exact Or.inr (by omega)
  · simp

/-- Ordered insertion commutes with the embedding of `ℕ` into `ℤ`. -/
theorem orderedInsert_map_cast (a : ℕ) (l : List ℕ) :
    List.orderedInsert (· ≤ ·) ((a : ℤ)) (l.map fun v : ℕ => (v : ℤ)) =
      (List.orderedInsert (· ≤ ·) a l).map fun v : ℕ => (v : ℤ) := by
  induction l with
  | nil => rfl
  | cons b l ih =>
    by_cases hab : a ≤ b
    · simp [List.orderedInsert, hab]
    · simp [List.orderedInsert, hab, ih]

/-- Insertion sort commutes with the embedding of `ℕ` into `ℤ`. -/
theorem insertionSort_map_cast (l : List ℕ) :
    List.insertionSort (· ≤ ·) (l.map fun v : ℕ => (v : ℤ)) =
      (List.insertionSort (· ≤ ·) l).map fun v : ℕ => (v : ℤ) := by
  induction l with
  | nil => rfl
  | cons a l ih => simp [List.insertionSort, ih, orderedInsert_map_cast]

/-- The validator's normalized key of a triangulator triangle is the
integer image of its `ℕ` key. -/
theorem sortKey_toZ (t : Tri) :
    sortKey (toZ t) = (keyN t).map fun v : ℕ => (v : ℤ) := by
  rw [sortKey, show toZ t = (vertsT t).map fun v : ℕ => (v : ℤ) from rfl,
    insertionSort_map_cast, keyN]

/-- C10: for every point collection accepted at construction (at least 3
points, no exact duplicates), the triangle list Bowyer-Watson hands to the
validating `Triangles` construction satisfies all four mesh invariants, so
`triangulate` returns normally — collinear inputs included, which may
simply yield a mesh with zero triangles. -/
theorem triangulate_always_valid (pts : List Pt)
    (_hinit : triInit pts = .ok ()) :
    validateTriangles pts.length ((bowyerWatson pts).map toZ) = .ok () ∧
    triangulate pts = .ok ⟨pts, bowyerWatson pts⟩ := by
  have hloop := insertLoop_inv (allPoints pts) pts.length pts
    [(pts.length, pts.length + 1, pts.length + 2)] 0 (by simp)
    (inv_init pts.length)
  obtain ⟨hok, hpw⟩ := hloop
  have hbw : bowyerWatson pts =
      (insertLoop (allPoints pts)
        [(pts.length, pts.length + 1, pts.length + 2)] 0 pts).filter
        fun t => !((vertsT t).any fun idx => pts.length ≤ idx) := rfl
  have hval : validateTriangles pts.length
      ((bowyerWatson pts).map toZ) = .ok () := by
    rw [validateTriangles, validateGo_ok_iff]
    refine ⟨?_, ?_, by simp⟩
    · intro tz htz
      obtain ⟨t, ht, rfl⟩ := List.mem_map.mp htz
      rw [hbw] at ht
      obtain ⟨htl, hkept⟩ := List.mem_filter.mp ht
      have hvlt : ∀ v ∈ vertsT t, v < pts.length := by
        intro v hv
        rw [Bool.not_eq_true', List.any_eq_false] at hkept
        have := hkept v hv
        simp only [decide_eq_true_eq] at this
        omega
      obtain ⟨hd, -⟩ := hok t htl
      have h1 := hvlt t.1 (by simp [vertsT])
      have h2 := hvlt t.2.1 (by simp [vertsT])
      have h3 := hvlt t.2.2 (by simp [vertsT])
      obtain ⟨hd1, hd2, hd3⟩ := hd
      refine ⟨rfl, ?_, ?_⟩
      · show checkRange [(t.1 : ℤ), (t.2.1 : ℤ), (t.2.2 : ℤ)]
          pts.length = true
        rw [checkRange]
        simp only [Bool.not_eq_true', Bool.or_eq_false_iff,
          decide_eq_false_iff_not]
        omega
      · rw [show toZ t = [(t.1 : ℤ), (t.2.1 : ℤ), (t.2.2 : ℤ)] from rfl,
          checkDistinct_iff]
        simp only [List.nodup_cons, List.mem_cons, List.not_mem_nil,
          or_false, List.nodup_nil, and_true, not_or, Nat.cast_inj]
        exact ⟨⟨hd1, hd3⟩, hd2, not_false⟩
    · rw [List.pairwise_map]
      have hfpw : ((insertLoop (allPoints pts)
          [(pts.length, pts.length + 1, pts.length + 2)] 0 pts).filter
            fun t => !((vertsT t).any fun idx => pts.length ≤ idx)).Pairwise
          fun a b => keyN a ≠ keyN b := hpw.filter _
      rw [hbw]
      refine hfpw.imp ?_
      intro a b hab heq
      apply hab
      rw [sortKey_toZ, sortKey_toZ] at heq
      exact List.map_injective_iff.mpr
        (fun x y hxy => by exact_mod_cast hxy) heq
  exact ⟨hval, by rw [triangulate, mkTriangles, hval]⟩

/-- C10 (witness): the theorem at the concrete *collinear* input
`(0,0), (1,1), (2,2)` — accepted by the construction checks, and
triangulated into a valid mesh with zero triangles. -/
theorem triangulate_always_valid_witness :
    triInit [((0 : ℚ), (0 : ℚ)), (1, 1), (2, 2)] = .ok () ∧
    triangulate [((0 : ℚ), (0 : ℚ)), (1, 1), (2, 2)] =
      .ok ⟨[((0 : ℚ), (0 : ℚ)), (1, 1), (2, 2)], []⟩ := by
  have hnd : hasDuplicate [] [((0 : ℚ), (0 : ℚ)), (1, 1), (2, 2)] = false :=
    (hasDuplicate_eq_false _ _).mpr
      ⟨by norm_num [Prod.ext_iff], by simp⟩
  have hinit : triInit [((0 : ℚ), (0 : ℚ)), (1, 1), (2, 2)] = .ok () := by
    rw [triInit, if_neg (by norm_num), if_neg (by rw [hnd]; simp)]
  have hbw : bowyerWatson [((0 : ℚ), (0 : ℚ)), (1, 1), (2, 2)] = [] := by
    norm_num [bowyerWatson, allPoints, superNodes, minX, maxX, minY, maxY,
      insertLoop, insertPoint, cavityBoundary, sharedEdge, edgesOf, sortEdge,
      isPointInCircumcircle, circum, eps, vertsT, List.erase, List.filter]
  refine ⟨hinit, ?_⟩
  have h := (triangulate_always_valid _ hinit).2
  rw [hbw] at h
  exact h

end TriCore
